import Mathlib

/-!
Verification of the CSS rule-selection engine of `django_critical_css`
(`django_critical_css/utils.py`).

The engine parses a stylesheet into a rule tree, compiles one boundary-aware
pattern per wanted-selector entry, keeps the style rules whose selector text
matches some pattern or contains a critical token, and recursively rewrites
`@media` / `@supports` containers so that only kept content remains, dropping
containers that would come out empty.

The embedding works at the level of the parsed rule tree (what `cssutils`
hands to the Python code): a `Rule` is a style rule (selector text plus an
opaque declaration payload), a media or supports container with its condition
text and nested rules, or any other kind of rule (at-rules such as `@import`,
comments, ...), which the code never inspects.  The regular expressions built
by `extract_rules` fall into four fixed shapes, which are embedded as the
`MatchPattern` type together with an executable matcher that follows Python
`re` semantics (word boundaries `\b`, whitespace `\s`, end of string `$`,
alternation, and backtracking over `\s*`) for exactly these shapes.
-/

namespace CriticalCss

/-- Python `\w` on ASCII input: letters, digits and underscore. -/
def isWordChar (c : Char) : Bool := c.isAlphanum || c = '_'

/-- Python `\s` on ASCII input: space, tab, newline, carriage return,
vertical tab and form feed. -/
def pySpace (c : Char) : Bool :=
  c = ' ' || c = '\t' || c = '\n' || c = '\r' || c = '\x0b' || c = '\x0c'

/-- Wordness of an optional character; the edges of the string count as
non-word positions. -/
def isWordOpt : Option Char → Bool
  | none => false
  | some c => isWordChar c

/-- Python `\b`: a word boundary sits between two positions of different
wordness. -/
def boundary (prev next : Option Char) : Bool := isWordOpt prev != isWordOpt next

/-- Match a literal character list at the head of `rest`; `prev` is the
character just before the current position (`none` at the start of the
string).  On success return the new previous character and the remainder. -/
def matchLit : List Char → Option Char → List Char → Option (Option Char × List Char)
  | [], prev, rest => some (prev, rest)
  | _ :: _, _, [] => none
  | l :: ls, _, c :: cs => if c = l then matchLit ls (some c) cs else none

/-- The last character of `l`, or `prev` when `l` is empty: the previous
character after a literal has been consumed. -/
def lastOpt (prev : Option Char) : List Char → Option Char
  | [] => prev
  | c :: cs => lastOpt (some c) cs

/-- The terminator alternation `(\b|:|::|$|\s|,|\+|~|>)` that the compiled
patterns put after the wanted text; `extra` adds the `\.|\[|#` branches used
by element patterns.  `prev` is the last character consumed by the literal
part, `rest` the rest of the string. -/
def termAfter (extra : Bool) (prev : Option Char) (rest : List Char) : Bool :=
  match rest with
  | [] => true
  | c :: _ =>
    boundary prev (some c) || c = ':' || pySpace c || c = ',' || c = '+' ||
      c = '~' || c = '>' || (extra && (c = '.' || c = '[' || c = '#'))

/-- A leading `\b` at the current position. -/
def leadBoundary (prev : Option Char) (rest : List Char) : Bool :=
  boundary prev rest.head?

/-- All ways for `\s*` to consume a prefix of `rest` (Python backtracks over
every split, so the matcher collects them all). -/
def spaceSplits : Option Char → List Char → List (Option Char × List Char)
  | prev, [] => [(prev, [])]
  | prev, c :: cs =>
    (prev, c :: cs) :: (if pySpace c then spaceSplits (some c) cs else [])

/-- Match a sequence of literal segments separated by `\s*` (the shape of a
compiled combination pattern) and return every reachable end state. -/
def matchSegsEnds : List (List Char) → Option Char → List Char → List (Option Char × List Char)
  | [], prev, rest => [(prev, rest)]
  | [seg], prev, rest => (matchLit seg prev rest).toList
  | seg :: seg2 :: segs, prev, rest =>
    match matchLit seg prev rest with
    | none => []
    | some pr =>
      (spaceSplits pr.1 pr.2).flatMap fun pr2 => matchSegsEnds (seg2 :: segs) pr2.1 pr2.2

/-- The four shapes of compiled pattern built by `extract_rules`:
`\.cls(\b|:|::|$|\s|,|\+|~|>)` for classes, `#id(...)` for ids,
`\belem(\b|:|::|$|\s|,|\+|~|>|\.|\[|#)` for elements, and
`\bcomb(...)` with every space of `comb` replaced by `\s*` for
combinations (`re.escape` makes everything else literal). -/
inductive MatchPattern where
  | classPat (cls : String)
  | idPat (idName : String)
  | elemPat (element : String)
  | combPat (combination : String)

/-- Split a character list on space characters (an accumulator-style,
kernel-reducible splitter). -/
def splitSpaces (cur : List Char) : List Char → List (List Char)
  | [] => [cur.reverse]
  | c :: cs => if c = ' ' then cur.reverse :: splitSpaces [] cs else splitSpaces (c :: cur) cs

/-- Segments of a combination entry: `re.escape` turns each space into
`\ `, and `.replace(r"\ ", r"\s*")` then turns it into `\s*`, so the
pattern is the space-separated segments of the entry joined by `\s*`. -/
def combSegs (k : String) : List (List Char) := splitSpaces [] k.data

/-- Does a compiled pattern match at the current position?  `prev` is the
character before the position, `rest` the remaining input. -/
def matchesAt : MatchPattern → Option Char → List Char → Bool
  | .classPat cls, prev, rest =>
    (match matchLit ('.' :: cls.data) prev rest with
     | some pr => termAfter false pr.1 pr.2
     | none => false)
  | .idPat idName, prev, rest =>
    (match matchLit ('#' :: idName.data) prev rest with
     | some pr => termAfter false pr.1 pr.2
     | none => false)
  | .elemPat element, prev, rest =>
    leadBoundary prev rest &&
      (match matchLit element.data prev rest with
       | some pr => termAfter true pr.1 pr.2
       | none => false)
  | .combPat k, prev, rest =>
    leadBoundary prev rest &&
      ((matchSegsEnds (combSegs k) prev rest).any fun pr => termAfter false pr.1 pr.2)

/-- `re.search`: try to match at every position of the string. -/
def searchFrom (p : MatchPattern) : Option Char → List Char → Bool
  | prev, [] => matchesAt p prev []
  | prev, c :: cs => matchesAt p prev (c :: cs) || searchFrom p (some c) cs

/-- `pattern.search(s)` succeeds somewhere in `s`. -/
def patSearch (p : MatchPattern) (s : String) : Bool := searchFrom p none s.data

/-- `tok` occurs literally at the head of the second list. -/
def litAtHead : List Char → List Char → Bool
  | [], _ => true
  | _ :: _, [] => false
  | t :: ts, c :: cs => t = c && litAtHead ts cs

/-- Python `tok in s`: `tok` occurs contiguously somewhere in `s`. -/
def hasSub (tok : List Char) : List Char → Bool
  | [] => litAtHead tok []
  | c :: cs => litAtHead tok (c :: cs) || hasSub tok cs

/-- The `wanted_selectors` dict: each key may be absent (`none`) or present
with a list of entries (the Python sets, order irrelevant to matching). -/
structure WantedSelectors where
  classes : Option (List String) := none
  ids : Option (List String) := none
  elements : Option (List String) := none
  combinations : Option (List String) := none

/-- `if wanted_selectors.get(key):` — an absent or empty entry contributes
no patterns. -/
def entryPatterns (entry : Option (List String)) (mk : String → MatchPattern) :
    List MatchPattern :=
  match entry with
  | none => []
  | some l => if l.isEmpty then [] else l.map mk

/-- The pattern list built by `extract_rules`: classes, then ids, then
elements, then combinations. -/
def buildPatterns (w : WantedSelectors) : List MatchPattern :=
  entryPatterns w.classes .classPat ++ entryPatterns w.ids .idPat ++
    entryPatterns w.elements .elemPat ++ entryPatterns w.combinations .combPat

/-- The fixed allowlist checked by `rule_matches`. -/
def critical_selectors : List String := ["*", "html", "body", ":root"]

/-- `rule_matches`: drop a rule with empty selector text; otherwise keep it
if some compiled pattern matches, or some critical token occurs in the
selector text as a plain substring. -/
def rule_matches (patterns : List MatchPattern) (selector_text : String) : Bool :=
  if selector_text.data.isEmpty then false
  else if patterns.any (fun p => patSearch p selector_text) then true
  else critical_selectors.any (fun crit => hasSub crit.data selector_text.data)

/-- A parsed CSS rule as `cssutils` presents it to the Python code: a style
rule (selector text plus opaque declaration payload), an `@media` or
`@supports` container with nested rules, or any other kind of rule, which
`extract_rules` never inspects. -/
inductive Rule where
  | styleRule (selectorText : String) (declarations : String)
  | mediaRule (mediaText : String) (cssRules : List Rule)
  | supportsRule (conditionText : String) (cssRules : List Rule)
  | otherRule (text : String)

mutual

/-- One pass over a rule sequence: matching style rules are appended in
order, containers are rewritten by `process_container` and appended when
non-empty, everything else is dropped.  This is the body of both the
top-level loop of `extract_rules` and the loop inside `process_container`. -/
def keptChildren (patterns : List MatchPattern) : List Rule → List Rule
  | [] => []
  | .styleRule sel dec :: rest =>
    if rule_matches patterns sel then
      .styleRule sel dec :: keptChildren patterns rest
    else keptChildren patterns rest
  | .mediaRule m rs :: rest =>
    (match process_container patterns (.mediaRule m rs) with
     | some n => n :: keptChildren patterns rest
     | none => keptChildren patterns rest)
  | .supportsRule c rs :: rest =>
    (match process_container patterns (.supportsRule c rs) with
     | some n => n :: keptChildren patterns rest
     | none => keptChildren patterns rest)
  | .otherRule _ :: rest => keptChildren patterns rest

/-- `process_container`: rewrite a conditional container, lazily creating an
output container of the same kind with the same condition text; return
`none` (absence) when nothing inside was kept. -/
def process_container (patterns : List MatchPattern) : Rule → Option Rule
  | .mediaRule m rs =>
    (match keptChildren patterns rs with
     | [] => none
     | kept => some (.mediaRule m kept))
  | .supportsRule c rs =>
    (match keptChildren patterns rs with
     | [] => none
     | kept => some (.supportsRule c kept))
  | .styleRule _ _ => none
  | .otherRule _ => none

end

/-- `extract_rules` on an already-parsed stylesheet: compile the patterns
once, then filter the top-level rules (the serialization back to CSS text is
modelled separately). -/
def extract_rules (sheet : List Rule) (wanted_selectors : WantedSelectors) : List Rule :=
  keptChildren (buildPatterns wanted_selectors) sheet

/-- `extract_rules_legacy`: wrap the class set as `{"classes": wanted_classes}`
and forward to `extract_rules`. -/
def extract_rules_legacy (sheet : List Rule) (wanted_classes : List String) : List Rule :=
  extract_rules sheet { classes := some wanted_classes }

/-- The endpoint-response payload consumed by
`extract_critical_css_from_endpoint_response`: each key may be absent. -/
structure EndpointResponse where
  success : Option Bool := none
  wantedSelectors : Option WantedSelectors := none
  wantedClasses : Option (List String) := none

/-- The `ValueError("Endpoint response indicates failure")` raised by the
adapter. -/
inductive EndpointError where
  | inputError (msg : String)

/-- `extract_critical_css_from_endpoint_response`: fail when
`endpoint_response.get("success", False)` is falsy, otherwise use the
structured `wantedSelectors` field when present, falling back to
`{"classes": set(endpoint_response.get("wantedClasses", []))}`. -/
def extract_critical_css_from_endpoint_response (sheet : List Rule)
    (endpoint_response : EndpointResponse) : Except EndpointError (List Rule) :=
  if !(endpoint_response.success.getD false) then
    .error (.inputError "Endpoint response indicates failure")
  else
    match endpoint_response.wantedSelectors with
    | some ws => .ok (extract_rules sheet ws)
    | none =>
      .ok (extract_rules sheet { classes := some (endpoint_response.wantedClasses.getD []) })

/-- The path-versus-text dispatch heuristic at the top of `extract_rules`:
`css_file.endswith(".css") or "/" in css_file` decides that the input is a
file path rather than raw CSS text. -/
def endsWithLit (suffix s : List Char) : Bool := litAtHead suffix.reverse s.reverse

/-- `True` when `extract_rules` would treat the string as a file path and
call `cssutils.parseFile` on it. -/
def isFileInput (css_file : String) : Bool :=
  endsWithLit (".css").data css_file.data || hasSub ("/").data css_file.data

mutual

/-- Every conditional container in the tree (at every depth) holds at least
one nested rule. -/
def ruleNoEmptyContainers : Rule → Bool
  | .styleRule _ _ => true
  | .mediaRule _ rs => !rs.isEmpty && rulesNoEmptyContainers rs
  | .supportsRule _ rs => !rs.isEmpty && rulesNoEmptyContainers rs
  | .otherRule _ => true

/-- `ruleNoEmptyContainers` over a rule sequence. -/
def rulesNoEmptyContainers : List Rule → Bool
  | [] => true
  | r :: rest => ruleNoEmptyContainers r && rulesNoEmptyContainers rest

end

mutual

/-- Every node of the tree is a plain style rule or an `@media`/`@supports`
container: no other kind of rule occurs at any depth. -/
def ruleKindOk : Rule → Bool
  | .styleRule _ _ => true
  | .mediaRule _ rs => rulesKindOk rs
  | .supportsRule _ rs => rulesKindOk rs
  | .otherRule _ => false

/-- `ruleKindOk` over a rule sequence. -/
def rulesKindOk : List Rule → Bool
  | [] => true
  | r :: rest => ruleKindOk r && rulesKindOk rest

end

mutual

/-- No string carried by the rule (selector, declarations, condition text)
contains a `/` character, at any depth. -/
def ruleSlashFree : Rule → Bool
  | .styleRule sel dec => !hasSub ['/'] sel.data && !hasSub ['/'] dec.data
  | .mediaRule m rs => !hasSub ['/'] m.data && rulesSlashFree rs
  | .supportsRule c rs => !hasSub ['/'] c.data && rulesSlashFree rs
  | .otherRule t => !hasSub ['/'] t.data

/-- `ruleSlashFree` over a rule sequence. -/
def rulesSlashFree : List Rule → Bool
  | [] => true
  | r :: rest => ruleSlashFree r && rulesSlashFree rest

end

mutual

/-- Serialization of one rule back to CSS text (the `cssText` step): the
selector, condition and declaration strings are emitted verbatim inside the
usual punctuation. -/
def serializeRule : Rule → List Char
  | .styleRule sel dec =>
    sel.data ++ (" \x7b\n    ").data ++ dec.data ++ ("\n    ").data ++ ['}']
  | .mediaRule m rs =>
    ("@media ").data ++ m.data ++ (" \x7b\n").data ++ serializeRules rs ++ ("\n").data ++ ['}']
  | .supportsRule c rs =>
    ("@supports ").data ++ c.data ++ (" \x7b\n").data ++ serializeRules rs ++ ("\n").data ++ ['}']
  | .otherRule t => t.data

/-- Serialization of a rule sequence, rules separated by a newline. -/
def serializeRules : List Rule → List Char
  | [] => []
  | [r] => serializeRule r
  | r :: rest => serializeRule r ++ '\n' :: serializeRules rest

end

/-- The serialized stylesheet as a string (`output.cssText`). -/
def cssText (rules : List Rule) : String := ⟨serializeRules rules⟩

/-- What one iteration of the extraction loops does with a single rule: keep
a matching style rule unchanged, rewrite a container through
`process_container`, drop everything else. -/
def keepRule (patterns : List MatchPattern) : Rule → Option Rule
  | .styleRule sel dec =>
    if rule_matches patterns sel then some (.styleRule sel dec) else none
  | .mediaRule m rs => process_container patterns (.mediaRule m rs)
  | .supportsRule c rs => process_container patterns (.supportsRule c rs)
  | .otherRule _ => none

/-- The selector texts of the style rules of a sequence, in order (a
projection used to state which rules an output contains). -/
def styleSelectorTexts (rules : List Rule) : List String :=
  rules.filterMap fun r =>
    match r with
    | .styleRule sel _ => some sel
    | _ => none

/-- Whether the adapter call raised (`True` exactly on the `ValueError`
path). -/
def raisesInputError : Except EndpointError (List Rule) → Bool
  | .error _ => true
  | .ok _ => false

/-- Both extraction loops act on a rule sequence as `filterMap keepRule`. -/
theorem keptChildren_eq_filterMap (patterns : List MatchPattern) :
    (rules : List Rule) → keptChildren patterns rules = rules.filterMap (keepRule patterns)
  | [] => by simp [keptChildren]
  | .styleRule sel dec :: rest => by
    have ih := keptChildren_eq_filterMap patterns rest
    by_cases h : rule_matches patterns sel = true
    · simp [keptChildren, List.filterMap_cons, keepRule, h, ih]
    · simp [keptChildren, List.filterMap_cons, keepRule, h, ih]
  | .mediaRule m rs :: rest => by
    have ih := keptChildren_eq_filterMap patterns rest
    rcases hk : process_container patterns (.mediaRule m rs) with _ | n
    · simp [keptChildren, List.filterMap_cons, keepRule, hk, ih]
    · simp [keptChildren, List.filterMap_cons, keepRule, hk, ih]
  | .supportsRule c rs :: rest => by
    have ih := keptChildren_eq_filterMap patterns rest
    rcases hk : process_container patterns (.supportsRule c rs) with _ | n
    · simp [keptChildren, List.filterMap_cons, keepRule, hk, ih]
    · simp [keptChildren, List.filterMap_cons, keepRule, hk, ih]
  | .otherRule t :: rest => by
    have ih := keptChildren_eq_filterMap patterns rest
    simp [keptChildren, List.filterMap_cons, keepRule, ih]

/-- Extraction never emits a rule kind other than style rules and
`@media`/`@supports` containers, at any depth. -/
theorem keptChildren_kindOk (patterns : List MatchPattern) :
    (rules : List Rule) → rulesKindOk (keptChildren patterns rules) = true
  | [] => by simp [keptChildren, rulesKindOk]
  | .styleRule sel dec :: rest => by
    have ih := keptChildren_kindOk patterns rest
    by_cases h : rule_matches patterns sel = true
    · simp [keptChildren, h, rulesKindOk, ruleKindOk, ih]
    · simp [keptChildren, h, ih]
  | .mediaRule m rs :: rest => by
    have ih1 := keptChildren_kindOk patterns rs
    have ih2 := keptChildren_kindOk patterns rest
    rcases hk : keptChildren patterns rs with _ | ⟨r0, t0⟩
    · simp [keptChildren, process_container, hk, ih2]
    · rw [hk] at ih1
      simp only [rulesKindOk, Bool.and_eq_true] at ih1
      simp [keptChildren, process_container, hk, rulesKindOk, ruleKindOk, ih1.1, ih1.2, ih2]
  | .supportsRule c rs :: rest => by
    have ih1 := keptChildren_kindOk patterns rs
    have ih2 := keptChildren_kindOk patterns rest
    rcases hk : keptChildren patterns rs with _ | ⟨r0, t0⟩
    · simp [keptChildren, process_container, hk, ih2]
    · rw [hk] at ih1
      simp only [rulesKindOk, Bool.and_eq_true] at ih1
      simp [keptChildren, process_container, hk, rulesKindOk, ruleKindOk, ih1.1, ih1.2, ih2]
  | .otherRule t :: rest => by
    have ih := keptChildren_kindOk patterns rest
    simp [keptChildren, ih]

/-- Extraction never emits an empty conditional container, at any depth. -/
theorem keptChildren_noEmptyContainers (patterns : List MatchPattern) :
    (rules : List Rule) → rulesNoEmptyContainers (keptChildren patterns rules) = true
  | [] => by simp [keptChildren, rulesNoEmptyContainers]
  | .styleRule sel dec :: rest => by
    have ih := keptChildren_noEmptyContainers patterns rest
    by_cases h : rule_matches patterns sel = true
    · simp [keptChildren, h, rulesNoEmptyContainers, ruleNoEmptyContainers, ih]
    · simp [keptChildren, h, ih]
  | .mediaRule m rs :: rest => by
    have ih1 := keptChildren_noEmptyContainers patterns rs
    have ih2 := keptChildren_noEmptyContainers patterns rest
    rcases hk : keptChildren patterns rs with _ | ⟨r0, t0⟩
    · simp [keptChildren, process_container, hk, ih2]
    · rw [hk] at ih1
      simp only [rulesNoEmptyContainers, Bool.and_eq_true] at ih1
      simp [keptChildren, process_container, hk, rulesNoEmptyContainers,
        ruleNoEmptyContainers, ih1.1, ih1.2, ih2]
  | .supportsRule c rs :: rest => by
    have ih1 := keptChildren_noEmptyContainers patterns rs
    have ih2 := keptChildren_noEmptyContainers patterns rest
    rcases hk : keptChildren patterns rs with _ | ⟨r0, t0⟩
    · simp [keptChildren, process_container, hk, ih2]
    · rw [hk] at ih1
      simp only [rulesNoEmptyContainers, Bool.and_eq_true] at ih1
      simp [keptChildren, process_container, hk, rulesNoEmptyContainers,
        ruleNoEmptyContainers, ih1.1, ih1.2, ih2]
  | .otherRule t :: rest => by
    have ih := keptChildren_noEmptyContainers patterns rest
    simp [keptChildren, ih]

/-- Extraction is idempotent on the rule tree: re-filtering the filtered
output with the same patterns keeps everything. -/
theorem keptChildren_idem (patterns : List MatchPattern) :
    (rules : List Rule) →
      keptChildren patterns (keptChildren patterns rules) = keptChildren patterns rules
  | [] => by simp [keptChildren]
  | .styleRule sel dec :: rest => by
    have ih := keptChildren_idem patterns rest
    by_cases h : rule_matches patterns sel = true
    · simp [keptChildren, h, ih]
    · simp [keptChildren, h, ih]
  | .mediaRule m rs :: rest => by
    have ih1 := keptChildren_idem patterns rs
    have ih2 := keptChildren_idem patterns rest
    rcases hk : keptChildren patterns rs with _ | ⟨r0, t0⟩
    · simp [keptChildren, process_container, hk, ih2]
    · have hfix : keptChildren patterns (r0 :: t0) = r0 :: t0 := by
        rw [← hk, ih1]
      simp [keptChildren, process_container, hk, hfix, ih2]
  | .supportsRule c rs :: rest => by
    have ih1 := keptChildren_idem patterns rs
    have ih2 := keptChildren_idem patterns rest
    rcases hk : keptChildren patterns rs with _ | ⟨r0, t0⟩
    · simp [keptChildren, process_container, hk, ih2]
    · have hfix : keptChildren patterns (r0 :: t0) = r0 :: t0 := by
        rw [← hk, ih1]
      simp [keptChildren, process_container, hk, hfix, ih2]
  | .otherRule t :: rest => by
    have ih := keptChildren_idem patterns rest
    simp [keptChildren, ih]

/-- Extraction introduces no new characters: a slash-free tree filters to a
slash-free tree. -/
theorem keptChildren_slashFree (patterns : List MatchPattern) :
    (rules : List Rule) → rulesSlashFree rules = true →
      rulesSlashFree (keptChildren patterns rules) = true
  | [], _ => by simp [keptChildren, rulesSlashFree]
  | .styleRule sel dec :: rest, h => by
    simp only [rulesSlashFree, Bool.and_eq_true] at h
    have ih := keptChildren_slashFree patterns rest h.2
    by_cases hm : rule_matches patterns sel = true
    · simp [keptChildren, hm, rulesSlashFree, h.1, ih]
    · simp [keptChildren, hm, ih]
  | .mediaRule m rs :: rest, h => by
    simp only [rulesSlashFree, ruleSlashFree, Bool.and_eq_true] at h
    have ih1 := keptChildren_slashFree patterns rs h.1.2
    have ih2 := keptChildren_slashFree patterns rest h.2
    rcases hk : keptChildren patterns rs with _ | ⟨r0, t0⟩
    · simp [keptChildren, process_container, hk, ih2]
    · rw [hk] at ih1
      simp only [rulesSlashFree, Bool.and_eq_true] at ih1
      simp [keptChildren, process_container, hk, rulesSlashFree, ruleSlashFree,
        h.1.1, ih1.1, ih1.2, ih2]
  | .supportsRule c rs :: rest, h => by
    simp only [rulesSlashFree, ruleSlashFree, Bool.and_eq_true] at h
    have ih1 := keptChildren_slashFree patterns rs h.1.2
    have ih2 := keptChildren_slashFree patterns rest h.2
    rcases hk : keptChildren patterns rs with _ | ⟨r0, t0⟩
    · simp [keptChildren, process_container, hk, ih2]
    · rw [hk] at ih1
      simp only [rulesSlashFree, Bool.and_eq_true] at ih1
      simp [keptChildren, process_container, hk, rulesSlashFree, ruleSlashFree,
        h.1.1, ih1.1, ih1.2, ih2]
  | .otherRule t :: rest, h => by
    simp only [rulesSlashFree, Bool.and_eq_true] at h
    have ih := keptChildren_slashFree patterns rest h.2
    simp [keptChildren, ih]

/-- Occurrence of a single character distributes over append. -/
theorem hasSub_single_append (a : Char) :
    (l1 : List Char) → ∀ l2, hasSub [a] (l1 ++ l2) = (hasSub [a] l1 || hasSub [a] l2)
  | [], l2 => by simp [hasSub, litAtHead]
  | c :: cs, l2 => by
    have ih := hasSub_single_append a cs l2
    simp [hasSub, litAtHead, ih, Bool.or_assoc]

theorem data_css : (".css").data = ['.', 'c', 's', 's'] := rfl

theorem data_slash : ("/").data = ['/'] := rfl

/-- A string that ends in `}` does not end in `.css`. -/
theorem endsWithLit_css_closed (pre : List Char) :
    endsWithLit ['.', 'c', 's', 's'] (pre ++ ['}']) = false := by
  simp [endsWithLit, List.reverse_append, litAtHead]

/-- A serialized style rule or container always closes with `}`. -/
theorem serializeRule_closes (r : Rule) (h : ruleKindOk r = true) :
    ∃ pre, serializeRule r = pre ++ ['}'] := by
  cases r with
  | styleRule sel dec =>
    exact ⟨sel.data ++ (" \x7b\n    ").data ++ dec.data ++ ("\n    ").data, rfl⟩
  | mediaRule m rs =>
    exact ⟨("@media ").data ++ m.data ++ (" \x7b\n").data ++ serializeRules rs ++ ("\n").data, rfl⟩
  | supportsRule c rs =>
    exact ⟨("@supports ").data ++ c.data ++ (" \x7b\n").data ++ serializeRules rs ++ ("\n").data, rfl⟩
  | otherRule t => simp [ruleKindOk] at h

/-- A serialized non-empty sequence of style rules and containers closes
with `}`. -/
theorem serializeRules_closes :
    (rs : List Rule) → rulesKindOk rs = true →
      rs = [] ∨ ∃ pre, serializeRules rs = pre ++ ['}']
  | [], _ => Or.inl rfl
  | [r], h => by
    simp only [rulesKindOk, Bool.and_eq_true] at h
    rcases serializeRule_closes r h.1 with ⟨pre, hpre⟩
    exact Or.inr ⟨pre, by simp [serializeRules, hpre]⟩
  | r :: r2 :: rest, h => by
    simp only [rulesKindOk, Bool.and_eq_true] at h
    rcases serializeRules_closes (r2 :: rest) (by simp [rulesKindOk, h.2.1, h.2.2]) with
      hnil | ⟨pre, hpre⟩
    · exact absurd hnil (by simp)
    · refine Or.inr ⟨serializeRule r ++ '\n' :: pre, ?_⟩
      simp [serializeRules, hpre]

mutual

/-- Serializing a slash-free tree yields slash-free text. -/
theorem serializeRule_noSlash :
    (r : Rule) → ruleSlashFree r = true → hasSub ['/'] (serializeRule r) = false
  | .styleRule sel dec, h => by
    simp only [ruleSlashFree, Bool.and_eq_true, Bool.not_eq_true'] at h
    simp [serializeRule, hasSub_single_append, hasSub, litAtHead, h.1, h.2]
  | .mediaRule m rs, h => by
    simp only [ruleSlashFree, Bool.and_eq_true, Bool.not_eq_true'] at h
    have ih := serializeRules_noSlash rs h.2
    simp [serializeRule, hasSub_single_append, hasSub, litAtHead, h.1, ih]
  | .supportsRule c rs, h => by
    simp only [ruleSlashFree, Bool.and_eq_true, Bool.not_eq_true'] at h
    have ih := serializeRules_noSlash rs h.2
    simp [serializeRule, hasSub_single_append, hasSub, litAtHead, h.1, ih]
  | .otherRule t, h => by
    simp only [ruleSlashFree, Bool.not_eq_true'] at h
    simp [serializeRule, h]

/-- Serializing a slash-free rule sequence yields slash-free text. -/
theorem serializeRules_noSlash :
    (rs : List Rule) → rulesSlashFree rs = true → hasSub ['/'] (serializeRules rs) = false
  | [], _ => by simp [serializeRules, hasSub, litAtHead]
  | [r], h => by
    simp only [rulesSlashFree, Bool.and_eq_true] at h
    have := serializeRule_noSlash r h.1
    simp [serializeRules, this]
  | r :: r2 :: rest, h => by
    simp only [rulesSlashFree, Bool.and_eq_true] at h
    have h1 := serializeRule_noSlash r h.1
    have h2 := serializeRules_noSlash (r2 :: rest) (by simp [rulesSlashFree, h.2.1, h.2.2])
    simp [serializeRules, hasSub_single_append, hasSub, litAtHead, h1, h2]

end

/-- The serialized output of extraction over a slash-free tree is never taken
for a file path by the input-dispatch heuristic of `extract_rules`. -/
theorem extract_output_not_file (w : WantedSelectors) (rules : List Rule)
    (h : rulesSlashFree rules = true) :
    isFileInput (cssText (extract_rules rules w)) = false := by
  have hk : rulesKindOk (extract_rules rules w) = true :=
    keptChildren_kindOk (buildPatterns w) rules
  have hs : rulesSlashFree (extract_rules rules w) = true :=
    keptChildren_slashFree (buildPatterns w) rules h
  have hnos : hasSub ['/'] (serializeRules (extract_rules rules w)) = false :=
    serializeRules_noSlash _ hs
  have hdata : (cssText (extract_rules rules w)).data = serializeRules (extract_rules rules w) :=
    rfl
  rcases serializeRules_closes _ hk with hnil | ⟨pre, hpre⟩
  · rw [isFileInput, hdata, hnil]
    simp [serializeRules, endsWithLit, litAtHead, hasSub, data_css, data_slash]
  · rw [hpre] at hnos
    rw [isFileInput, hdata, hpre, data_css, data_slash]
    simp [endsWithLit_css_closed, hnos]

/-- `matchLit` succeeds exactly on the literal prefix, ending just past it. -/
theorem matchLit_eq_some_iff :
    (lit : List Char) → ∀ (prev : Option Char) (rest : List Char) (st : Option Char × List Char),
      matchLit lit prev rest = some st ↔
        ∃ post, rest = lit ++ post ∧ st = (lastOpt prev lit, post)
  | [], prev, rest, st => by
    simp only [matchLit, lastOpt, List.nil_append, Option.some_inj]
    constructor
    · rintro rfl; exact ⟨rest, rfl, rfl⟩
    · rintro ⟨post, rfl, rfl⟩; rfl
  | _ :: _, prev, [], st => by simp [matchLit]
  | l :: ls, prev, c :: cs, st => by
    by_cases h : c = l
    · subst h
      have ih := matchLit_eq_some_iff ls (some c) cs st
      simp [matchLit, ih, lastOpt]
    · simp only [matchLit, if_neg h, List.cons_append, List.cons.injEq]
      constructor
      · intro hfalse; cases hfalse
      · rintro ⟨post, ⟨hc, _⟩, _⟩; exact absurd hc h

/-- `searchFrom` succeeds exactly when the pattern matches at some split of
the remaining input; `prev` tracks the character before the current
position. -/
theorem searchFrom_eq_true_iff (p : MatchPattern) :
    (rest : List Char) → ∀ (prev : Option Char),
      searchFrom p prev rest = true ↔
        ∃ pre post, rest = pre ++ post ∧ matchesAt p (lastOpt prev pre) post = true
  | [], prev => by
    simp only [searchFrom]
    constructor
    · intro h; exact ⟨[], [], rfl, h⟩
    · rintro ⟨pre, post, hsplit, hm⟩
      rcases List.append_eq_nil.mp hsplit.symm with ⟨rfl, rfl⟩
      exact hm
  | c :: cs, prev => by
    have ih := searchFrom_eq_true_iff p cs (some c)
    simp only [searchFrom, Bool.or_eq_true]
    constructor
    · rintro (h | h)
      · exact ⟨[], c :: cs, rfl, h⟩
      · rcases ih.mp h with ⟨pre, post, hsplit, hm⟩
        exact ⟨c :: pre, post, by rw [List.cons_append, ← hsplit], hm⟩
    · rintro ⟨pre, post, hsplit, hm⟩
      cases pre with
      | nil =>
        rw [List.nil_append] at hsplit
        subst hsplit
        exact Or.inl hm
      | cons c' pre' =>
        rw [List.cons_append] at hsplit
        injection hsplit with hc htail
        subst hc
        exact Or.inr (ih.mpr ⟨pre', post, htail, hm⟩)

/-- A compiled class pattern `\.cls(\b|:|::|$|\s|,|\+|~|>)` finds a match in
`s` exactly when `s` contains `.` followed by the literal entry, followed by
the terminator alternation. -/
theorem patSearch_classPat_iff (cls s : String) :
    patSearch (.classPat cls) s = true ↔
      ∃ pre post, s.data = pre ++ ('.' :: cls.data) ++ post ∧
        termAfter false (lastOpt (some '.') cls.data) post = true := by
  rw [patSearch, searchFrom_eq_true_iff]
  constructor
  · rintro ⟨pre, mid, hsplit, hm⟩
    rcases hml : matchLit ('.' :: cls.data) (lastOpt none pre) mid with _ | pr
    · simp [matchesAt, hml] at hm
    · rcases (matchLit_eq_some_iff _ _ _ _).mp hml with ⟨post, hmid, hst⟩
      refine ⟨pre, post, by rw [hsplit, hmid, List.append_assoc], ?_⟩
      simp only [matchesAt, hml] at hm
      rw [hst] at hm
      simpa [lastOpt] using hm
  · rintro ⟨pre, post, hsplit, hterm⟩
    refine ⟨pre, '.' :: cls.data ++ post, by rw [hsplit, List.append_assoc], ?_⟩
    have hml : matchLit ('.' :: cls.data) (lastOpt none pre) ('.' :: (cls.data ++ post)) =
        some (lastOpt (some '.') cls.data, post) :=
      (matchLit_eq_some_iff _ _ _ _).mpr ⟨post, rfl, rfl⟩
    simp [matchesAt, hml, hterm]

/-- A compiled element pattern `\belem(\b|:|::|$|\s|,|\+|~|>|\.|\[|#)` finds
a match in `s` exactly when `s` contains the literal entry at a leading word
boundary, followed by the extended terminator alternation. -/
theorem patSearch_elemPat_iff (e s : String) :
    patSearch (.elemPat e) s = true ↔
      ∃ pre post, s.data = pre ++ e.data ++ post ∧
        leadBoundary (lastOpt none pre) (e.data ++ post) = true ∧
        termAfter true (lastOpt (lastOpt none pre) e.data) post = true := by
  rw [patSearch, searchFrom_eq_true_iff]
  constructor
  · rintro ⟨pre, mid, hsplit, hm⟩
    simp only [matchesAt, Bool.and_eq_true] at hm
    obtain ⟨hlead, hmat⟩ := hm
    rcases hml : matchLit e.data (lastOpt none pre) mid with _ | pr
    · rw [hml] at hmat
      simp at hmat
    · rcases (matchLit_eq_some_iff _ _ _ _).mp hml with ⟨post, hmid, hst⟩
      refine ⟨pre, post, by rw [hsplit, hmid, List.append_assoc], ?_, ?_⟩
      · rw [← hmid]; exact hlead
      · rw [hml] at hmat
        simp only at hmat
        rw [hst] at hmat
        simpa using hmat
  · rintro ⟨pre, post, hsplit, hlead, hterm⟩
    refine ⟨pre, e.data ++ post, by rw [hsplit, List.append_assoc], ?_⟩
    have hml : matchLit e.data (lastOpt none pre) (e.data ++ post) =
        some (lastOpt (lastOpt none pre) e.data, post) :=
      (matchLit_eq_some_iff _ _ _ _).mpr ⟨post, rfl, rfl⟩
    simp only [matchesAt, Bool.and_eq_true]
    refine ⟨hlead, ?_⟩
    rw [hml]
    simpa using hterm

/-- C1: `rule_matches` keeps a rule exactly when its selector text is
non-empty and either some compiled pattern matches in it or it contains one
of the fixed critical tokens `*`, `html`, `body`, `:root` as a plain
substring; the allowlist still applies with an entirely empty
`WantedSelectors` (scenario: `html` is kept, `.foo` is dropped). -/
theorem rule_matcher_contract :
    (∀ (w : WantedSelectors) (sel : String),
      rule_matches (buildPatterns w) sel = true ↔
        (sel ≠ "" ∧ ((∃ p ∈ buildPatterns w, patSearch p sel = true) ∨
          (∃ t ∈ critical_selectors, hasSub t.data sel.data = true)))) ∧
    (∀ d1 d2 : String,
      extract_rules [.styleRule "html" d1, .styleRule ".foo" d2] {} =
        [.styleRule "html" d1]) := by
  constructor
  · intro w sel
    rw [rule_matches]
    split_ifs with h1 h2
    · have hsel : sel = "" := by
        cases sel with
        | mk l =>
          cases l with
          | nil => rfl
          | cons a as => simp [List.isEmpty] at h1
      subst hsel
      simp
    · have hs : sel ≠ "" := by
        intro hcon
        subst hcon
        exact h1 (by decide)
      constructor
      · intro _
        rcases List.any_eq_true.mp h2 with ⟨p, hp, hps⟩
        exact ⟨hs, Or.inl ⟨p, hp, hps⟩⟩
      · intro _
        rfl
    · have hs : sel ≠ "" := by
        intro hcon
        subst hcon
        exact h1 (by decide)
      constructor
      · intro h
        rcases List.any_eq_true.mp h with ⟨t, ht, hts⟩
        exact ⟨hs, Or.inr ⟨t, ht, hts⟩⟩
      · rintro ⟨-, h | h⟩
        · rcases h with ⟨p, hp, hps⟩
          exact absurd (List.any_eq_true.mpr ⟨p, hp, hps⟩) h2
        · rcases h with ⟨t, ht, hts⟩
          exact List.any_eq_true.mpr ⟨t, ht, hts⟩
  · intro d1 d2
    rfl

/-- C2 counterexample: the class pattern for `btn` does match `.btn-large`
(a word boundary sits between `n` and `-`), so with
`wanted = {classes: {btn}}` the output keeps both `.btn` and `.btn-large`,
not only `.btn` as the claim states. -/
theorem class_hyphen_counterexample :
    patSearch (.classPat "btn") ".btn-large" = true ∧
    styleSelectorTexts (extract_rules
      [.styleRule ".btn" "color: blue", .styleRule ".btn-large" "padding: 4px"]
      { classes := some ["btn"] }) = [".btn", ".btn-large"] :=
  ⟨by decide, by decide⟩

/-- C2 amended: a class entry's pattern matches `.` + entry exactly when it
is immediately followed by one of {word boundary, `:`, `::`, end-of-string,
whitespace, `,`, `+`, `~`, `>`}; since `-` is not a word character, a word
boundary holds between the entry's final word character and a following
hyphen, so the pattern does NOT prevent matching hyphen-extended class
names: with wanted = {classes: {"btn"}} both `.btn {...}` and
`.btn-large {...}` are kept. -/
theorem class_boundary_amended :
    (∀ (cls s : String), patSearch (.classPat cls) s = true ↔
      ∃ pre post, s.data = pre ++ ('.' :: cls.data) ++ post ∧
        termAfter false (lastOpt (some '.') cls.data) post = true) ∧
    termAfter false (some 'n') ('-' :: ("large").data) = true ∧
    (∀ d1 d2 : String,
      extract_rules [.styleRule ".btn" d1, .styleRule ".btn-large" d2]
        { classes := some ["btn"] } =
        [.styleRule ".btn" d1, .styleRule ".btn-large" d2]) :=
  ⟨patSearch_classPat_iff, by decide, fun d1 d2 => rfl⟩

/-- C3: extraction never emits an empty conditional container at any depth,
and every container emitted by `process_container` is of the same kind as
its source and carries the original condition text verbatim. -/
theorem no_empty_containers_condition_verbatim :
    (∀ (w : WantedSelectors) (sheet : List Rule),
      rulesNoEmptyContainers (extract_rules sheet w) = true) ∧
    (∀ (patterns : List MatchPattern) (r r' : Rule),
      process_container patterns r = some r' →
        (∃ m rs kept, r = .mediaRule m rs ∧ r' = .mediaRule m kept ∧ kept ≠ []) ∨
        (∃ c rs kept, r = .supportsRule c rs ∧ r' = .supportsRule c kept ∧ kept ≠ [])) := by
  constructor
  · exact fun w sheet => keptChildren_noEmptyContainers (buildPatterns w) sheet
  · intro patterns r r' h
    cases r with
    | styleRule sel dec => simp [process_container] at h
    | otherRule t => simp [process_container] at h
    | mediaRule m rs =>
      rcases hk : keptChildren patterns rs with _ | ⟨r0, t0⟩
      · simp [process_container, hk] at h
      · simp only [process_container, hk, Option.some_inj] at h
        exact Or.inl ⟨m, rs, r0 :: t0, rfl, h.symm, by simp⟩
    | supportsRule c rs =>
      rcases hk : keptChildren patterns rs with _ | ⟨r0, t0⟩
      · simp [process_container, hk] at h
      · simp only [process_container, hk, Option.some_inj] at h
        exact Or.inr ⟨c, rs, r0 :: t0, rfl, h.symm, by simp⟩

theorem no_empty_containers_condition_verbatim_witness :
    (∃ m rs kept,
      (Rule.mediaRule "(min-width: 768px)" [Rule.styleRule "html" "margin: 0"]) =
        Rule.mediaRule m rs ∧
      (Rule.mediaRule "(min-width: 768px)" [Rule.styleRule "html" "margin: 0"]) =
        Rule.mediaRule m kept ∧ kept ≠ []) ∨
    (∃ c rs kept,
      (Rule.mediaRule "(min-width: 768px)" [Rule.styleRule "html" "margin: 0"]) =
        Rule.supportsRule c rs ∧
      (Rule.mediaRule "(min-width: 768px)" [Rule.styleRule "html" "margin: 0"]) =
        Rule.supportsRule c kept ∧ kept ≠ []) :=
  no_empty_containers_condition_verbatim.2 []
    (Rule.mediaRule "(min-width: 768px)" [Rule.styleRule "html" "margin: 0"])
    (Rule.mediaRule "(min-width: 768px)" [Rule.styleRule "html" "margin: 0"]) rfl

/-- C4: a combination entry matches only as one contiguous token of the
selector text: `div.card` matches the selector `div.card` (and
`div.card:hover`) but not the descendant form `div .card`, whose rule is
dropped. -/
theorem combination_single_token :
    patSearch (.combPat "div.card") "div .card" = false ∧
    patSearch (.combPat "div.card") "div.card" = true ∧
    patSearch (.combPat "div.card") "div.card:hover" = true ∧
    (∀ d : String,
      extract_rules [.styleRule "div .card" d] { combinations := some ["div.card"] } = []) :=
  ⟨by decide, by decide, by decide, fun d => rfl⟩

/-- C5: an element entry matches at a leading word boundary followed by the
terminator set extended with `.`, `[`, `#`; in particular `div` matches
`div.card`, `div[data-x]` and `div#main`, and with
`wanted = {elements: {"div"}}` the rule `div.card {...}` is kept. -/
theorem element_prefix_matching :
    (∀ (e s : String), patSearch (.elemPat e) s = true ↔
      ∃ pre post, s.data = pre ++ e.data ++ post ∧
        leadBoundary (lastOpt none pre) (e.data ++ post) = true ∧
        termAfter true (lastOpt (lastOpt none pre) e.data) post = true) ∧
    patSearch (.elemPat "div") "div.card" = true ∧
    patSearch (.elemPat "div") "div[data-x]" = true ∧
    patSearch (.elemPat "div") "div#main" = true ∧
    (∀ d : String,
      extract_rules [.styleRule "div.card" d] { elements := some ["div"] } =
        [.styleRule "div.card" d]) :=
  ⟨patSearch_elemPat_iff, by decide, by decide, by decide, fun d => rfl⟩

/-- C6: extraction preserves the relative order of kept rules at every
nesting level: both the top-level loop and the loop inside a rewritten
container are `keptChildren`, which maps a sequence containing `a` before
`b` (both kept) to a sequence with `a`'s image before `b`'s image. -/
theorem order_preserved_at_each_level :
    (∀ (patterns : List MatchPattern) (l1 l2 l3 : List Rule) (a b a' b' : Rule),
      keepRule patterns a = some a' → keepRule patterns b = some b' →
      ∃ m1 m2 m3, keptChildren patterns (l1 ++ a :: l2 ++ b :: l3) =
        m1 ++ a' :: m2 ++ b' :: m3) ∧
    (∀ (patterns : List MatchPattern) (m : String) (l1 l2 l3 : List Rule) (a b a' b' : Rule),
      keepRule patterns a = some a' → keepRule patterns b = some b' →
      ∃ m1 m2 m3, process_container patterns (.mediaRule m (l1 ++ a :: l2 ++ b :: l3)) =
        some (.mediaRule m (m1 ++ a' :: m2 ++ b' :: m3))) := by
  have main : ∀ (patterns : List MatchPattern) (l1 l2 l3 : List Rule) (a b a' b' : Rule),
      keepRule patterns a = some a' → keepRule patterns b = some b' →
      keptChildren patterns (l1 ++ a :: l2 ++ b :: l3) =
        l1.filterMap (keepRule patterns) ++ a' :: l2.filterMap (keepRule patterns) ++
          b' :: l3.filterMap (keepRule patterns) := by
    intro patterns l1 l2 l3 a b a' b' ha hb
    rw [keptChildren_eq_filterMap]
    simp [List.filterMap_append, List.filterMap_cons, ha, hb]
  constructor
  · intro patterns l1 l2 l3 a b a' b' ha hb
    exact ⟨_, _, _, main patterns l1 l2 l3 a b a' b' ha hb⟩
  · intro patterns m l1 l2 l3 a b a' b' ha hb
    have hlist := main patterns l1 l2 l3 a b a' b' ha hb
    refine ⟨l1.filterMap (keepRule patterns), l2.filterMap (keepRule patterns),
      l3.filterMap (keepRule patterns), ?_⟩
    rcases hshape : l1.filterMap (keepRule patterns) ++
        a' :: l2.filterMap (keepRule patterns) ++ b' :: l3.filterMap (keepRule patterns)
      with _ | ⟨x, xs⟩
    · exact absurd hshape (by simp)
    · rw [hshape] at hlist
      simp only [List.append_assoc, List.cons_append] at hlist
      simp [process_container, hlist]

theorem order_preserved_at_each_level_witness :
    ∃ m1 m2 m3,
      keptChildren [] ([Rule.styleRule ".x" "q"] ++ Rule.styleRule "html" "a" ::
        [Rule.otherRule "@import url(other)"] ++ Rule.styleRule "body" "b" :: []) =
        m1 ++ Rule.styleRule "html" "a" :: m2 ++ Rule.styleRule "body" "b" :: m3 :=
  order_preserved_at_each_level.1 [] [Rule.styleRule ".x" "q"]
    [Rule.otherRule "@import url(other)"] [] (Rule.styleRule "html" "a")
    (Rule.styleRule "body" "b") (Rule.styleRule "html" "a")
    (Rule.styleRule "body" "b") rfl rfl

/-- C7: the endpoint adapter raises exactly when the payload's `success`
flag is falsy (absent counts as falsy); when `success` is truthy and
`wantedSelectors` is absent it returns the classes-only extraction over
`wantedClasses` (empty when that is absent too). -/
theorem endpoint_response_contract :
    ∀ (sheet : List Rule) (resp : EndpointResponse),
      (raisesInputError (extract_critical_css_from_endpoint_response sheet resp) = true ↔
        resp.success.getD false = false) ∧
      (resp.success.getD false = true → resp.wantedSelectors = none →
        extract_critical_css_from_endpoint_response sheet resp =
          .ok (extract_rules sheet { classes := some (resp.wantedClasses.getD []) })) := by
  intro sheet resp
  constructor
  · rcases hs : resp.success.getD false
    · simp [extract_critical_css_from_endpoint_response, hs, raisesInputError]
    · simp only [extract_critical_css_from_endpoint_response, hs]
      cases resp.wantedSelectors <;> simp [raisesInputError]
  · intro hs hw
    simp [extract_critical_css_from_endpoint_response, hs, hw]

theorem endpoint_response_contract_witness :
    extract_critical_css_from_endpoint_response [Rule.styleRule ".foo" "color: red"]
      { success := some true, wantedClasses := some ["foo"] } =
      .ok (extract_rules [Rule.styleRule ".foo" "color: red"]
        { classes := some ["foo"] }) :=
  (endpoint_response_contract [Rule.styleRule ".foo" "color: red"]
    { success := some true, wantedClasses := some ["foo"] }).2 rfl rfl

/-- C8: the legacy entry point is extraction with a classes-only
`wanted_selectors` dict; supplying the other keys as empty sets gives the
same result as leaving them absent. -/
theorem legacy_equals_classes_only :
    ∀ (sheet : List Rule) (wanted_classes : List String),
      extract_rules_legacy sheet wanted_classes =
        extract_rules sheet { classes := some wanted_classes } ∧
      extract_rules_legacy sheet wanted_classes =
        extract_rules sheet ⟨some wanted_classes, some [], some [], some []⟩ :=
  fun _ _ => ⟨rfl, rfl⟩

/-- C9: extraction is idempotent — re-filtering the extracted tree with the
same `WantedSelectors` changes nothing — and the serialized output of a
slash-free stylesheet is accepted as raw CSS text by the path-versus-text
dispatch heuristic rather than taken for a file path. -/
theorem extract_idempotent_contract :
    (∀ (w : WantedSelectors) (sheet : List Rule),
      extract_rules (extract_rules sheet w) w = extract_rules sheet w) ∧
    (∀ (w : WantedSelectors) (sheet : List Rule), rulesSlashFree sheet = true →
      isFileInput (cssText (extract_rules sheet w)) = false) :=
  ⟨fun w sheet => keptChildren_idem (buildPatterns w) sheet,
   fun w sheet h => extract_output_not_file w sheet h⟩

theorem extract_idempotent_contract_witness :
    rulesSlashFree [Rule.styleRule "html" "margin: 0"] = true ∧
    isFileInput (cssText (extract_rules [Rule.styleRule "html" "margin: 0"]
      { classes := some ["btn"] })) = false :=
  ⟨by decide, extract_idempotent_contract.2 { classes := some ["btn"] }
    [Rule.styleRule "html" "margin: 0"] (by decide)⟩

/-- C10: extraction unconditionally drops every rule that is neither a
plain style rule nor an `@media`/`@supports` container, at every depth
(scenario: a top-level `@font-face` and a `@keyframes` nested in a media
block are both absent from the output, and the media block itself is
dropped as empty). -/
theorem non_style_non_container_dropped :
    (∀ (w : WantedSelectors) (sheet : List Rule),
      rulesKindOk (extract_rules sheet w) = true) ∧
    (∀ d : String,
      extract_rules [.otherRule "@font-face { font-family: F }",
        .mediaRule "(min-width: 768px)" [.otherRule "@keyframes spin { }"],
        .styleRule "html" d] {} = [.styleRule "html" d]) :=
  ⟨fun w sheet => keptChildren_kindOk (buildPatterns w) sheet, fun _ => rfl⟩

end CriticalCss
